import Mathlib

/-!
Verification development for the Turkish syllable analysis system
(`turkish_hyphenation.py`): the syllable-inventory generator, the
dynamic-programming word segmenter, the SQLite-backed frequency/dedup
store operations, link extraction, and the crawl loop.

Words and urls are modelled as `List Char`; the Python functions are
translated definition by definition.
-/

/-- Turkish vowels (8 total), module constant `VOWELS`. -/
def VOWELS : List Char := ['a', 'e', 'ı', 'i', 'o', 'ö', 'u', 'ü']

/-- Turkish consonants (21 total), module constant `CONSONANTS`. -/
def CONSONANTS : List Char :=
  ['b', 'c', 'ç', 'd', 'f', 'g', 'ğ', 'h', 'j', 'k', 'l', 'm', 'n', 'p',
   'r', 's', 'ş', 't', 'v', 'y', 'z']

/-- `generate_all_syllables`: every string formed after the five patterns
V, VC, CV, CVC, CVCC, in the order the Python function appends them.
`itertools.product` iterates the leftmost alphabet outermost, which is the
nesting order of the binds below, and `''.join` of a tuple is the
concatenation of its letters. -/
def generate_all_syllables : List (List Char) :=
  (VOWELS.map fun v => [v])
  ++ (VOWELS.flatMap fun v => CONSONANTS.map fun c => [v, c])
  ++ (CONSONANTS.flatMap fun c => VOWELS.map fun v => [c, v])
  ++ (CONSONANTS.flatMap fun c => VOWELS.flatMap fun v => CONSONANTS.map fun c2 => [c, v, c2])
  ++ (CONSONANTS.flatMap fun c => VOWELS.flatMap fun v =>
        CONSONANTS.flatMap fun c2 => CONSONANTS.map fun c3 => [c, v, c2, c3])

/-- The membership test on the generated inventory: the Python code builds
`set(generate_all_syllables())` and passes it to `syllabify_word`. -/
def all_syllables_set : List Char → Bool :=
  fun s => decide (s ∈ generate_all_syllables)

/-- The lowercase mapping of Python's `str.lower()` (no locale) restricted to
the uppercase letters of the repository's token alphabet
`[a-zA-ZçÇğĞıİöÖşŞüÜ]`: ASCII `A`–`Z` map to `a`–`z` (in particular `I` to
plain `i`), the Turkish capitals map to their lowercase forms, and `İ`
(U+0130) maps to the two characters `i` + combining dot above, exactly as
CPython lowercases it. -/
def LOWER_MAP : List (Char × List Char) :=
  [('A', ['a']), ('B', ['b']), ('C', ['c']), ('D', ['d']), ('E', ['e']),
   ('F', ['f']), ('G', ['g']), ('H', ['h']), ('I', ['i']), ('J', ['j']),
   ('K', ['k']), ('L', ['l']), ('M', ['m']), ('N', ['n']), ('O', ['o']),
   ('P', ['p']), ('Q', ['q']), ('R', ['r']), ('S', ['s']), ('T', ['t']),
   ('U', ['u']), ('V', ['v']), ('W', ['w']), ('X', ['x']), ('Y', ['y']),
   ('Z', ['z']), ('Ç', ['ç']), ('Ğ', ['ğ']), ('İ', ['i', '̇']),
   ('Ö', ['ö']), ('Ş', ['ş']), ('Ü', ['ü'])]

/-- One character of Python's `str.lower()`: look the character up in the
lowercase table, else leave it unchanged. -/
def lowerChar (c : Char) : List Char :=
  (LOWER_MAP.lookup c).getD [c]

/-- `word.lower()` as the Python code calls it on tokens. -/
def pyLower (w : List Char) : List Char :=
  w.flatMap lowerChar

/-- `str.isupper()` for one character of the token alphabet: exactly the
characters the lowercase table rewrites. Used by the proper-noun filter
`word[0].isupper()` in `process_text`. -/
def pyIsUpper (c : Char) : Bool :=
  (LOWER_MAP.lookup c).isSome

/-- A recorded decomposition: the list of syllables for a prefix of the word
(`dp[i]` holds such a list, or `None`). -/
abbrev Segs := List (List Char)

/-- Python's `word[j:i]` (for `0 ≤ j ≤ i`). -/
def sliceWord (word : List Char) (j i : Nat) : List Char :=
  (word.drop j).take (i - j)

/-- The candidate start positions `range(max(0, i - 4), i)` of the inner loop
of `syllabify_word`: `j` ascends, so the substring `word[j:i]` is tried
longest first. -/
def candRange (i : Nat) : List Nat :=
  List.range' (i - 4) (min i 4)

/-- The inner loop of `syllabify_word` for one end position `i`: scan the
candidate start positions in order; at the first `j` whose substring is in
the inventory and whose table entry `dp[j]` is not `None`, record
`dp[j] + [syllable]` and stop (the `break`). `None` when no candidate
succeeds. -/
def tryCandidates (word : List Char) (inv : List Char → Bool)
    (dp : List (Option Segs)) (i : Nat) : List Nat → Option Segs
  | [] => none
  | j :: js =>
    if inv (sliceWord word j i) then
      match dp.getD j none with
      | some pre => some (pre ++ [sliceWord word j i])
      | none => tryCandidates word inv dp i js
    else tryCandidates word inv dp i js

/-- The table `dp` of `syllabify_word` after the outer loop has run up to end
position `i`: entry `j ≤ i` is `dp[j]`. `dp[0] = []`, and each later entry
is computed by the inner loop over the already-filled prefix. -/
def dpList (word : List Char) (inv : List Char → Bool) : Nat → List (Option Segs)
  | 0 => [some []]
  | i + 1 =>
    dpList word inv i ++
      [tryCandidates word inv (dpList word inv i) (i + 1) (candRange (i + 1))]

/-- `syllabify_word(word, all_syllables_set)`: lowercase the word, fill the
table, return `dp[n]`. -/
def syllabify_word (word : List Char) (inv : List Char → Bool) : Option Segs :=
  let w := pyLower word
  (dpList w inv w.length).getD w.length none

/-- `dp[i]` once the table is filled far enough to hold it. -/
def dpVal (word : List Char) (inv : List Char → Bool) (i : Nat) : Option Segs :=
  (dpList word inv i).getD i none

lemma dpList_length (word : List Char) (inv : List Char → Bool) (i : Nat) :
    (dpList word inv i).length = i + 1 := by
  induction i with
  | zero => rfl
  | succ i ih => simp [dpList, ih]

lemma dpList_getD (word : List Char) (inv : List Char → Bool) {j m : Nat}
    (h : j ≤ m) : (dpList word inv m).getD j none = dpVal word inv j := by
  induction m with
  | zero =>
    have hj : j = 0 := Nat.le_zero.mp h
    subst hj; rfl
  | succ m ih =>
    rcases Nat.lt_or_ge j (m + 1) with hlt | hge
    · have hj : j ≤ m := Nat.lt_succ_iff.mp hlt
      have hlen : j < (dpList word inv m).length := by
        rw [dpList_length]; omega
      rw [dpList, List.getD_append _ _ _ _ hlen, ih hj]
    · have hj : j = m + 1 := Nat.le_antisymm h hge
      subst hj; rfl

lemma dpVal_zero (word : List Char) (inv : List Char → Bool) :
    dpVal word inv 0 = some [] := rfl

lemma dpVal_succ (word : List Char) (inv : List Char → Bool) (i : Nat) :
    dpVal word inv (i + 1) =
      tryCandidates word inv (dpList word inv i) (i + 1) (candRange (i + 1)) := by
  have hlen : (dpList word inv i).length = i + 1 := dpList_length word inv i
  show (dpList word inv i ++ [_]).getD (i + 1) none = _
  rw [List.getD_append_right _ _ _ _ (by omega), hlen]
  simp

lemma mem_candRange {j i : Nat} : j ∈ candRange i ↔ i - 4 ≤ j ∧ j < i := by
  unfold candRange
  rw [List.mem_range'_1]
  omega

lemma syllabify_word_eq_dpVal (word : List Char) (inv : List Char → Bool) :
    syllabify_word word inv = dpVal (pyLower word) inv (pyLower word).length := rfl

lemma tryCandidates_some {word : List Char} {inv : List Char → Bool}
    {dp : List (Option Segs)} {i : Nat} {js : List Nat} {ss : Segs}
    (h : tryCandidates word inv dp i js = some ss) :
    ∃ j ∈ js, inv (sliceWord word j i) = true ∧
      ∃ pre, dp.getD j none = some pre ∧ ss = pre ++ [sliceWord word j i] := by
  induction js with
  | nil => simp [tryCandidates] at h
  | cons j js ih =>
    rw [tryCandidates] at h
    by_cases hinv : inv (sliceWord word j i)
    · rw [if_pos hinv] at h
      cases hdp : dp.getD j none with
      | some pre =>
        rw [hdp] at h
        exact ⟨j, List.mem_cons_self _ _, hinv, pre, hdp, (Option.some_injective _ h).symm⟩
      | none =>
        rw [hdp] at h
        obtain ⟨j', hj', hrest⟩ := ih h
        exact ⟨j', List.mem_cons_of_mem _ hj', hrest⟩
    · rw [if_neg hinv] at h
      obtain ⟨j', hj', hrest⟩ := ih h
      exact ⟨j', List.mem_cons_of_mem _ hj', hrest⟩

lemma tryCandidates_ne_none {word : List Char} {inv : List Char → Bool}
    {dp : List (Option Segs)} {i : Nat} {js : List Nat} {j : Nat}
    (hj : j ∈ js) (hinv : inv (sliceWord word j i) = true)
    (hdp : dp.getD j none ≠ none) :
    tryCandidates word inv dp i js ≠ none := by
  induction js with
  | nil => cases hj
  | cons j0 js ih =>
    rw [tryCandidates]
    rcases List.mem_cons.mp hj with rfl | hj'
    · rw [if_pos hinv]
      cases hdp0 : dp.getD j none with
      | some pre => simp
      | none => exact absurd hdp0 hdp
    · by_cases hinv0 : inv (sliceWord word j0 i)
      · rw [if_pos hinv0]
        cases hdp0 : dp.getD j0 none with
        | some pre => simp
        | none => exact ih hj'
      · rw [if_neg hinv0]
        exact ih hj'

/-- Soundness of the table: a recorded decomposition at position `i`
concatenates back to the first `i` characters of the word. -/
lemma dpVal_join {word : List Char} {inv : List Char → Bool} :
    ∀ i ss, dpVal word inv i = some ss → ss.flatten = word.take i := by
  intro i
  induction i using Nat.strong_induction_on with
  | _ i ih =>
    intro ss h
    match i with
    | 0 =>
      rw [dpVal_zero] at h
      cases h
      simp
    | i + 1 =>
      rw [dpVal_succ] at h
      obtain ⟨j, hj, _, pre, hpre, rfl⟩ := tryCandidates_some h
      obtain ⟨_, hjlt⟩ := mem_candRange.mp hj
      rw [dpList_getD word inv (Nat.lt_succ_iff.mp hjlt)] at hpre
      have hjoin := ih j hjlt pre hpre
      have : j + (i + 1 - j) = i + 1 := by omega
      calc (pre ++ [sliceWord word j (i + 1)]).flatten
          = pre.flatten ++ sliceWord word j (i + 1) := by simp
        _ = word.take j ++ (word.drop j).take (i + 1 - j) := by
            rw [hjoin]; rfl
        _ = word.take (j + (i + 1 - j)) := (List.take_add _ _ _).symm
        _ = word.take (i + 1) := by rw [this]

/-- One completeness step: if position `j` is reachable and an inventory
syllable of length 1..4 covers `word[j:i]`, then position `i` is reachable. -/
lemma dpVal_step {word : List Char} {inv : List Char → Bool} {j i : Nat}
    (hlt : j < i) (hle : i ≤ j + 4) (hinv : inv (sliceWord word j i) = true)
    (hj : dpVal word inv j ≠ none) : dpVal word inv i ≠ none := by
  match i, hlt with
  | i + 1, hlt =>
    rw [dpVal_succ]
    have hjmem : j ∈ candRange (i + 1) := mem_candRange.mpr ⟨by omega, hlt⟩
    have hdp : (dpList word inv i).getD j none ≠ none := by
      rw [dpList_getD word inv (Nat.lt_succ_iff.mp hlt)]
      exact hj
    exact tryCandidates_ne_none hjmem hinv hdp

/-- Completeness of the table: walking a decomposition whose syllables are in
the inventory (each 1 to 4 letters long) from a reachable position reaches
the position at its end. -/
lemma dpVal_complete {word : List Char} {inv : List Char → Bool} :
    ∀ (ss : Segs) (j : Nat),
      (∀ s ∈ ss, inv s = true ∧ 1 ≤ s.length ∧ s.length ≤ 4) →
      (∃ t, word.drop j = ss.flatten ++ t) →
      dpVal word inv j ≠ none →
      dpVal word inv (j + ss.flatten.length) ≠ none := by
  intro ss
  induction ss with
  | nil =>
    intro j _ _ hj
    simpa using hj
  | cons s rest ih =>
    intro j hss ⟨t, ht⟩ hj
    obtain ⟨hinv, hlen1, hlen4⟩ := hss s (List.mem_cons_self _ _)
    have hslice : sliceWord word j (j + s.length) = s := by
      unfold sliceWord
      rw [ht]
      simp [List.flatten_cons, List.append_assoc]
    have hstep : dpVal word inv (j + s.length) ≠ none := by
      refine dpVal_step (by omega) (by omega) ?_ hj
      rw [hslice]; exact hinv
    have hdrop : word.drop (j + s.length) = rest.flatten ++ t := by
      have : word.drop (j + s.length) = (word.drop j).drop s.length := by
        rw [List.drop_drop]
      rw [this, ht]
      simp [List.flatten_cons, List.append_assoc]
    have := ih (j + s.length)
      (fun s' hs' => hss s' (List.mem_cons_of_mem _ hs')) ⟨t, hdrop⟩ hstep
    have harith : j + s.length + rest.flatten.length = j + (s :: rest).flatten.length := by
      simp [List.flatten_cons]
      try omega
    rwa [harith] at this

lemma mem_of_lookup_eq_some {α β : Type} [BEq α] [LawfulBEq α] {c : α} {out : β} :
    ∀ {m : List (α × β)}, m.lookup c = some out → (c, out) ∈ m
  | [], h => by simp [List.lookup] at h
  | (k, v) :: rest, h => by
    rw [List.lookup] at h
    split at h
    next hk =>
      cases h
      have : c = k := eq_of_beq hk
      subst this
      exact List.mem_cons_self _ _
    next => exact List.mem_cons_of_mem _ (mem_of_lookup_eq_some h)

/-- No character produced by the lowercase table is itself a key of the
table: lowercasing is exhausted after one pass. -/
lemma LOWER_MAP_closed :
    ∀ p ∈ LOWER_MAP, ∀ c ∈ p.2, LOWER_MAP.lookup c = none := by decide

lemma flatMap_singleton_id {α : Type} {l : List α} {f : α → List α}
    (h : ∀ x ∈ l, f x = [x]) : l.flatMap f = l := by
  induction l with
  | nil => rfl
  | cons a t ih =>
    rw [List.flatMap_cons, h a (List.mem_cons_self _ _),
        ih fun x hx => h x (List.mem_cons_of_mem _ hx)]
    rfl

lemma lowerChar_of_lookup_none {c : Char} (h : LOWER_MAP.lookup c = none) :
    lowerChar c = [c] := by
  simp [lowerChar, h]

lemma lowerChar_fix (c : Char) : (lowerChar c).flatMap lowerChar = lowerChar c := by
  cases h : LOWER_MAP.lookup c with
  | none =>
    rw [lowerChar_of_lookup_none h]
    exact flatMap_singleton_id fun x hx => by
      rw [List.mem_singleton] at hx
      subst hx
      exact lowerChar_of_lookup_none h
  | some out =>
    have hout : lowerChar c = out := by simp [lowerChar, h]
    rw [hout]
    exact flatMap_singleton_id fun x hx =>
      lowerChar_of_lookup_none (LOWER_MAP_closed _ (mem_of_lookup_eq_some h) x hx)

/-- Python's `str.lower()` is idempotent. -/
lemma pyLower_idem (w : List Char) : pyLower (pyLower w) = pyLower w := by
  induction w with
  | nil => rfl
  | cons c t ih =>
    show (lowerChar c ++ pyLower t).flatMap lowerChar = lowerChar c ++ pyLower t
    rw [List.flatMap_append]
    show (lowerChar c).flatMap lowerChar ++ pyLower (pyLower t) = _
    rw [lowerChar_fix, ih]

lemma pyLower_fixed {w : List Char} (h : ∀ c ∈ w, lowerChar c = [c]) :
    pyLower w = w :=
  flatMap_singleton_id h

lemma lowerChar_vowel : ∀ c ∈ VOWELS, lowerChar c = [c] := by decide

lemma lowerChar_consonant : ∀ c ∈ CONSONANTS, lowerChar c = [c] := by decide

/-- Every letter of the two alphabets is already lowercase. -/
lemma lowerChar_alphabet :
    ∀ c, (c ∈ VOWELS ∨ c ∈ CONSONANTS) → lowerChar c = [c] := by
  intro c h
  rcases h with h | h
  · exact lowerChar_vowel c h
  · exact lowerChar_consonant c h

/-- The five syllable shapes of the generator, with the alphabet membership
of every letter. -/
def sylShape (s : List Char) : Prop :=
  (∃ v ∈ VOWELS, s = [v]) ∨
  (∃ v ∈ VOWELS, ∃ c ∈ CONSONANTS, s = [v, c]) ∨
  (∃ c ∈ CONSONANTS, ∃ v ∈ VOWELS, s = [c, v]) ∨
  (∃ c ∈ CONSONANTS, ∃ v ∈ VOWELS, ∃ c2 ∈ CONSONANTS, s = [c, v, c2]) ∨
  (∃ c ∈ CONSONANTS, ∃ v ∈ VOWELS, ∃ c2 ∈ CONSONANTS, ∃ c3 ∈ CONSONANTS,
    s = [c, v, c2, c3])

lemma mem_generate_shape {s : List Char} (h : s ∈ generate_all_syllables) :
    sylShape s := by
  unfold generate_all_syllables at h
  simp only [List.mem_append, List.mem_flatMap, List.mem_map] at h
  unfold sylShape
  rcases h with (((⟨v, hv, rfl⟩ | ⟨v, hv, c, hc, rfl⟩) | ⟨c, hc, v, hv, rfl⟩) |
    ⟨c, hc, v, hv, c2, hc2, rfl⟩) | ⟨c, hc, v, hv, c2, hc2, c3, hc3, rfl⟩
  · exact Or.inl ⟨v, hv, rfl⟩
  · exact Or.inr (Or.inl ⟨v, hv, c, hc, rfl⟩)
  · exact Or.inr (Or.inr (Or.inl ⟨c, hc, v, hv, rfl⟩))
  · exact Or.inr (Or.inr (Or.inr (Or.inl ⟨c, hc, v, hv, c2, hc2, rfl⟩)))
  · exact Or.inr (Or.inr (Or.inr (Or.inr ⟨c, hc, v, hv, c2, hc2, c3, hc3, rfl⟩)))

lemma sylShape_length {s : List Char} (h : sylShape s) :
    1 ≤ s.length ∧ s.length ≤ 4 := by
  unfold sylShape at h
  rcases h with ⟨v, _, rfl⟩ | ⟨v, _, c, _, rfl⟩ | ⟨c, _, v, _, rfl⟩ |
    ⟨c, _, v, _, c2, _, rfl⟩ | ⟨c, _, v, _, c2, _, c3, _, rfl⟩ <;> simp

lemma sylShape_chars {s : List Char} (h : sylShape s) :
    ∀ c ∈ s, c ∈ VOWELS ∨ c ∈ CONSONANTS := by
  unfold sylShape at h
  rcases h with ⟨v, hv, rfl⟩ | ⟨v, hv, c, hc, rfl⟩ | ⟨c, hc, v, hv, rfl⟩ |
    ⟨c, hc, v, hv, c2, hc2, rfl⟩ | ⟨c, hc, v, hv, c2, hc2, c3, hc3, rfl⟩ <;>
    intro x hx <;> simp only [List.mem_cons, List.mem_singleton,
      List.not_mem_nil, or_false] at hx
  · subst hx; exact Or.inl hv
  · rcases hx with rfl | rfl
    · exact Or.inl hv
    · exact Or.inr hc
  · rcases hx with rfl | rfl
    · exact Or.inr hc
    · exact Or.inl hv
  · rcases hx with rfl | rfl | rfl
    · exact Or.inr hc
    · exact Or.inl hv
    · exact Or.inr hc2
  · rcases hx with rfl | rfl | rfl | rfl
    · exact Or.inr hc
    · exact Or.inl hv
    · exact Or.inr hc2
    · exact Or.inr hc3

lemma flatMap_length_const {α β : Type} (l : List α) (f : α → List β) (k : Nat)
    (h : ∀ a ∈ l, (f a).length = k) : (l.flatMap f).length = l.length * k := by
  induction l with
  | nil => simp
  | cons a t ih =>
    rw [List.flatMap_cons, List.length_append, h a (List.mem_cons_self _ _),
        ih fun x hx => h x (List.mem_cons_of_mem _ hx), List.length_cons]
    ring

/-- The generated list is 8 + 168 + 168 + 3528 + 74088 = 77,960 entries
long. -/
lemma generate_length : generate_all_syllables.length = 77960 := by
  have hmap : ∀ (g : Char → List Char), (CONSONANTS.map g).length = 21 :=
    fun g => by rw [List.length_map]; rfl
  have hmapv : ∀ (g : Char → List Char), (VOWELS.map g).length = 8 :=
    fun g => by rw [List.length_map]; rfl
  have h2 : (VOWELS.flatMap fun v => CONSONANTS.map fun c => [v, c]).length = 168 := by
    rw [flatMap_length_const VOWELS _ 21 fun v _ => hmap _]; rfl
  have h3 : (CONSONANTS.flatMap fun c => VOWELS.map fun v => [c, v]).length = 168 := by
    rw [flatMap_length_const CONSONANTS _ 8 fun c _ => hmapv _]; rfl
  have h4 : (CONSONANTS.flatMap fun c => VOWELS.flatMap fun v =>
      CONSONANTS.map fun c2 => [c, v, c2]).length = 3528 := by
    rw [flatMap_length_const CONSONANTS _ 168 fun c _ => by
      rw [flatMap_length_const VOWELS _ 21 fun v _ => hmap _]; rfl]
    rfl
  have h5 : (CONSONANTS.flatMap fun c => VOWELS.flatMap fun v =>
      CONSONANTS.flatMap fun c2 => CONSONANTS.map fun c3 => [c, v, c2, c3]).length
      = 74088 := by
    rw [flatMap_length_const CONSONANTS _ 3528 fun c _ => by
      rw [flatMap_length_const VOWELS _ 441 fun v _ => by
        rw [flatMap_length_const CONSONANTS _ 21 fun c2 _ => hmap _]; rfl]; rfl]
    rfl
  unfold generate_all_syllables
  rw [List.length_append, List.length_append, List.length_append,
      List.length_append, hmapv, h2, h3, h4, h5]

lemma syllabify_some_flatten {inv : List Char → Bool} {w : List Char} {ss : Segs}
    (h : syllabify_word w inv = some ss) : ss.flatten = pyLower w := by
  rw [syllabify_word_eq_dpVal] at h
  have hj := dpVal_join _ _ h
  rwa [List.take_length] at hj

/-- Completeness of the segmenter over the generated inventory: a word that
is the concatenation of inventory syllables is never rejected. The `break`
in the inner loop only fixes which decomposition `dp[i]` records; whether
`dp[i]` is filled at all depends on all candidates, which the loop does
examine. -/
lemma syllabify_inventory_complete {w : List Char} {ss : Segs}
    (hmem : ∀ s ∈ ss, s ∈ generate_all_syllables) (hjoin : ss.flatten = w) :
    syllabify_word w all_syllables_set ≠ none := by
  subst hjoin
  have hchars : ∀ c ∈ ss.flatten, lowerChar c = [c] := by
    intro c hc
    rw [List.mem_flatten] at hc
    obtain ⟨l, hl, hcl⟩ := hc
    exact lowerChar_alphabet c (sylShape_chars (mem_generate_shape (hmem l hl)) c hcl)
  have hlow : pyLower ss.flatten = ss.flatten := pyLower_fixed hchars
  rw [syllabify_word_eq_dpVal, hlow]
  have hss : ∀ s ∈ ss, all_syllables_set s = true ∧ 1 ≤ s.length ∧ s.length ≤ 4 := by
    intro s hs
    have hm := hmem s hs
    have hb := sylShape_length (mem_generate_shape hm)
    exact ⟨decide_eq_true hm, hb.1, hb.2⟩
  have hc := @dpVal_complete ss.flatten all_syllables_set ss 0 hss
    ⟨[], by simp⟩ (by rw [dpVal_zero]; exact Option.some_ne_none _)
  simpa using hc

lemma ev_mem_inventory : ['e', 'v'] ∈ generate_all_syllables := by
  unfold generate_all_syllables
  simp only [List.mem_append, List.mem_flatMap, List.mem_map]
  exact Or.inl (Or.inl (Or.inl (Or.inr ⟨'e', by decide, 'v', by decide, rfl⟩)))

/-- C1 (amended): the segmentation engine exhibits no false negatives.
Every token that decomposes into inventory syllables at all is accepted by
`syllabify_word`; the early `break` fixes only which decomposition is
returned, never whether one is found, because reachability of each position
is established from all candidate predecessors. -/
theorem syllabify_no_false_negatives (w : List Char) (ss : List (List Char))
    (hmem : ∀ s ∈ ss, s ∈ generate_all_syllables) (hjoin : ss.flatten = w) :
    syllabify_word w all_syllables_set ≠ none :=
  syllabify_inventory_complete hmem hjoin

theorem syllabify_no_false_negatives_witness :
    syllabify_word ['e', 'v'] all_syllables_set ≠ none :=
  syllabify_no_false_negatives ['e', 'v'] [['e', 'v']]
    (fun s hs => by rw [List.mem_singleton] at hs; subst hs; exact ev_mem_inventory)
    rfl

/-- C1 (counterexample to the claim as stated): there is no token with a
valid decomposition into inventory syllables on which `syllabify_word`
returns the failure signal. -/
theorem syllabify_false_negative_cx :
    ¬ ∃ (w : List Char) (ss : List (List Char)),
        (∀ s ∈ ss, s ∈ generate_all_syllables) ∧ ss.flatten = w ∧
        syllabify_word w all_syllables_set = none := by
  rintro ⟨w, ss, hmem, hjoin, hnone⟩
  exact syllabify_inventory_complete hmem hjoin hnone

/-- C5: on a lowercase token, `syllabify_word` either fails, or returns a
sequence of syllables whose concatenation is exactly the token — never a
partial result. -/
theorem syllabify_word_round_trip (inv : List Char → Bool) (w : List Char)
    (hlow : pyLower w = w) :
    syllabify_word w inv = none ∨
      ∃ ss, syllabify_word w inv = some ss ∧ ss.flatten = w := by
  cases h : syllabify_word w inv with
  | none => exact Or.inl rfl
  | some ss => exact Or.inr ⟨ss, rfl, by rw [syllabify_some_flatten h, hlow]⟩

theorem syllabify_word_round_trip_witness :
    syllabify_word ['e', 'v'] (fun s => decide (s = ['e', 'v'])) = none ∨
      ∃ ss, syllabify_word ['e', 'v'] (fun s => decide (s = ['e', 'v'])) = some ss ∧
        ss.flatten = ['e', 'v'] :=
  syllabify_word_round_trip _ ['e', 'v'] (by decide)

lemma vowels_nodup : VOWELS.Nodup := by decide

lemma consonants_nodup : CONSONANTS.Nodup := by decide

lemma vowel_not_consonant : ∀ c ∈ VOWELS, c ∉ CONSONANTS := by decide

/-- A flatMap over a duplicate-free list is duplicate-free when each inner
list is duplicate-free and some key of every inner element recovers the
outer element it came from. -/
lemma nodup_key_flatMap {α β : Type} {l : List α} {f : α → List β} (key : β → α)
    (hl : l.Nodup) (hf : ∀ a ∈ l, (f a).Nodup)
    (hkey : ∀ a, ∀ s ∈ f a, key s = a) :
    (l.flatMap f).Nodup := by
  rw [List.nodup_flatMap]
  refine ⟨hf, ?_⟩
  have h2 : ∀ a b : α, a ≠ b → Function.onFun List.Disjoint f a b := by
    intro a b hab
    intro s hsa hsb
    exact hab ((hkey a s hsa).symm.trans (hkey b s hsb))
  exact List.Pairwise.imp (fun hab => h2 _ _ hab) hl

lemma nodup_chunk_v : (VOWELS.map fun v => [v]).Nodup :=
  vowels_nodup.map fun a b h => by simpa using h

lemma nodup_chunk_vc :
    (VOWELS.flatMap fun v => CONSONANTS.map fun c => [v, c]).Nodup := by
  refine nodup_key_flatMap (fun s => s.headD ' ') vowels_nodup ?_ ?_
  · intro v _
    exact consonants_nodup.map fun a b h => by simpa using h
  · intro v s hs
    simp only [List.mem_map] at hs
    obtain ⟨c, _, rfl⟩ := hs
    rfl

lemma nodup_chunk_cv :
    (CONSONANTS.flatMap fun c => VOWELS.map fun v => [c, v]).Nodup := by
  refine nodup_key_flatMap (fun s => s.headD ' ') consonants_nodup ?_ ?_
  · intro c _
    exact vowels_nodup.map fun a b h => by simpa using h
  · intro c s hs
    simp only [List.mem_map] at hs
    obtain ⟨v, _, rfl⟩ := hs
    rfl

lemma nodup_chunk_cvc : (CONSONANTS.flatMap fun c => VOWELS.flatMap fun v =>
    CONSONANTS.map fun c2 => [c, v, c2]).Nodup := by
  refine nodup_key_flatMap (fun s => s.headD ' ') consonants_nodup ?_ ?_
  · intro c _
    refine nodup_key_flatMap (fun s => s.tail.headD ' ') vowels_nodup ?_ ?_
    · intro v _
      exact consonants_nodup.map fun a b h => by simpa using h
    · intro v s hs
      simp only [List.mem_map] at hs
      obtain ⟨c2, _, rfl⟩ := hs
      rfl
  · intro c s hs
    simp only [List.mem_flatMap, List.mem_map] at hs
    obtain ⟨v, _, c2, _, rfl⟩ := hs
    rfl

lemma nodup_chunk_cvcc : (CONSONANTS.flatMap fun c => VOWELS.flatMap fun v =>
    CONSONANTS.flatMap fun c2 => CONSONANTS.map fun c3 => [c, v, c2, c3]).Nodup := by
  refine nodup_key_flatMap (fun s => s.headD ' ') consonants_nodup ?_ ?_
  · intro c _
    refine nodup_key_flatMap (fun s => s.tail.headD ' ') vowels_nodup ?_ ?_
    · intro v _
      refine nodup_key_flatMap (fun s => s.tail.tail.headD ' ') consonants_nodup ?_ ?_
      · intro c2 _
        exact consonants_nodup.map fun a b h => by simpa using h
      · intro c2 s hs
        simp only [List.mem_map] at hs
        obtain ⟨c3, _, rfl⟩ := hs
        rfl
    · intro v s hs
      simp only [List.mem_flatMap, List.mem_map] at hs
      obtain ⟨c2, _, c3, _, rfl⟩ := hs
      rfl
  · intro c s hs
    simp only [List.mem_flatMap, List.mem_map] at hs
    obtain ⟨v, _, c2, _, c3, _, rfl⟩ := hs
    rfl

lemma len_chunk_v : ∀ s ∈ (VOWELS.map fun v => [v]), s.length = 1 := by
  intro s hs
  simp only [List.mem_map] at hs
  obtain ⟨v, _, rfl⟩ := hs
  rfl

lemma len_chunk_vc :
    ∀ s ∈ (VOWELS.flatMap fun v => CONSONANTS.map fun c => [v, c]),
      s.length = 2 := by
  intro s hs
  simp only [List.mem_flatMap, List.mem_map] at hs
  obtain ⟨v, _, c, _, rfl⟩ := hs
  rfl

lemma len_chunk_cv :
    ∀ s ∈ (CONSONANTS.flatMap fun c => VOWELS.map fun v => [c, v]),
      s.length = 2 := by
  intro s hs
  simp only [List.mem_flatMap, List.mem_map] at hs
  obtain ⟨c, _, v, _, rfl⟩ := hs
  rfl

lemma len_chunk_cvc :
    ∀ s ∈ (CONSONANTS.flatMap fun c => VOWELS.flatMap fun v =>
      CONSONANTS.map fun c2 => [c, v, c2]), s.length = 3 := by
  intro s hs
  simp only [List.mem_flatMap, List.mem_map] at hs
  obtain ⟨c, _, v, _, c2, _, rfl⟩ := hs
  rfl

lemma len_chunk_cvcc :
    ∀ s ∈ (CONSONANTS.flatMap fun c => VOWELS.flatMap fun v =>
      CONSONANTS.flatMap fun c2 => CONSONANTS.map fun c3 => [c, v, c2, c3]),
      s.length = 4 := by
  intro s hs
  simp only [List.mem_flatMap, List.mem_map] at hs
  obtain ⟨c, _, v, _, c2, _, c3, _, rfl⟩ := hs
  rfl

lemma disjoint_of_length {A B : List (List Char)} {la lb : Nat}
    (hA : ∀ s ∈ A, s.length = la) (hB : ∀ s ∈ B, s.length = lb) (h : la ≠ lb) :
    A.Disjoint B :=
  fun s hsA hsB => h ((hA s hsA).symm.trans (hB s hsB))

/-- The VC and CV chunks share no string: a VC string starts with a vowel, a
CV string with a consonant, and the alphabets are disjoint. -/
lemma disjoint_vc_cv :
    (VOWELS.flatMap fun v => CONSONANTS.map fun c => [v, c]).Disjoint
      (CONSONANTS.flatMap fun c => VOWELS.map fun v => [c, v]) := by
  intro s h2 h3
  simp only [List.mem_flatMap, List.mem_map] at h2 h3
  obtain ⟨v, hv, c, hc, rfl⟩ := h2
  obtain ⟨c2, hc2, v2, hv2, heq⟩ := h3
  injection heq with h1 _
  exact vowel_not_consonant v hv (h1 ▸ hc2)

/-- The five pattern chunks never repeat a string, within a chunk or across
chunks. -/
lemma generate_nodup : generate_all_syllables.Nodup := by
  unfold generate_all_syllables
  refine List.Nodup.append (List.Nodup.append (List.Nodup.append
      (List.Nodup.append nodup_chunk_v nodup_chunk_vc
        (disjoint_of_length len_chunk_v len_chunk_vc (by decide)))
      nodup_chunk_cv ?_) nodup_chunk_cvc ?_) nodup_chunk_cvcc ?_
  · exact List.disjoint_append_left.mpr
      ⟨disjoint_of_length len_chunk_v len_chunk_cv (by decide), disjoint_vc_cv⟩
  · exact List.disjoint_append_left.mpr
      ⟨List.disjoint_append_left.mpr
        ⟨disjoint_of_length len_chunk_v len_chunk_cvc (by decide),
         disjoint_of_length len_chunk_vc len_chunk_cvc (by decide)⟩,
       disjoint_of_length len_chunk_cv len_chunk_cvc (by decide)⟩
  · exact List.disjoint_append_left.mpr
      ⟨List.disjoint_append_left.mpr
        ⟨List.disjoint_append_left.mpr
          ⟨disjoint_of_length len_chunk_v len_chunk_cvcc (by decide),
           disjoint_of_length len_chunk_vc len_chunk_cvcc (by decide)⟩,
         disjoint_of_length len_chunk_cv len_chunk_cvcc (by decide)⟩,
       disjoint_of_length len_chunk_cvc len_chunk_cvcc (by decide)⟩

/-- C6: the inventory set `set(generate_all_syllables())` has exactly 77,960
members: the generated list is duplicate-free and 77,960 entries long, and
every member has one of the five declared shapes, its length (1 to 4) being
the length of its pattern. -/
theorem inventory_size_and_shapes :
    generate_all_syllables.toFinset.card = 77960 ∧
    generate_all_syllables.Nodup ∧
    generate_all_syllables.length = 77960 ∧
    ∀ s ∈ generate_all_syllables, sylShape s ∧ 1 ≤ s.length ∧ s.length ≤ 4 := by
  refine ⟨?_, generate_nodup, generate_length, fun s hs => ?_⟩
  · rw [List.toFinset_card_of_nodup generate_nodup, generate_length]
  · have h := mem_generate_shape hs
    exact ⟨h, (sylShape_length h).1, (sylShape_length h).2⟩

/-- C9: `syllabify_word` lowercases its input itself, so it gives the same
answer on a word and on the word's lowercase form. -/
theorem syllabify_word_case_insensitive (w : List Char) (inv : List Char → Bool) :
    syllabify_word w inv = syllabify_word (pyLower w) inv := by
  unfold syllabify_word
  rw [pyLower_idem]

/-- C10: the empty string succeeds with the empty syllable sequence (the
success value recorded for position 0), not the failure signal. -/
theorem syllabify_word_empty (inv : List Char → Bool) :
    syllabify_word [] inv = some [] := rfl

/-- One row of an n-gram table (`syllables`, `monographs`, `digraphs`,
`trigraphs` share this schema): frequency counter plus the word and url of
the most recent occurrence. -/
structure NgramEntry where
  frequency : Int
  last_word : List Char
  last_url : List Char
deriving DecidableEq

/-- An n-gram table as a keyed map, key = the n-gram text. -/
def NgramTable := List Char → Option NgramEntry

/-- The body shared by `_update_syllable`, `_update_monograph`,
`_update_digraph` and `_update_trigraph`:
`INSERT ... VALUES (?, 1, ?, ?) ON CONFLICT DO UPDATE SET frequency =
frequency + 1, last_word = excluded.last_word, last_url = excluded.last_url`. -/
def upsert_increment (t : NgramTable) (key word url : List Char) : NgramTable :=
  fun k =>
    if k = key then
      match t key with
      | none => some ⟨1, word, url⟩
      | some e => some ⟨e.frequency + 1, word, url⟩
    else t k

/-- C4: the upsert inserts an absent key with count 1, increments a present
key by 1, always overwrites last_word/last_url with the current call's
arguments, and two calls on the same key take the count from 1 to 2 with
the auxiliary fields of the most recent call. -/
theorem upsert_increment_contract (t : NgramTable) (key w u w2 u2 : List Char) :
    (t key = none → upsert_increment t key w u key = some ⟨1, w, u⟩) ∧
    (∀ e, t key = some e →
      upsert_increment t key w u key = some ⟨e.frequency + 1, w, u⟩) ∧
    (t key = none →
      upsert_increment (upsert_increment t key w u) key w2 u2 key = some ⟨2, w2, u2⟩) := by
  refine ⟨fun h => ?_, fun e h => ?_, fun h => ?_⟩
  · simp [upsert_increment, h]
  · simp [upsert_increment, h]
  · simp [upsert_increment, h]

/-- The persistent crawl-frontier and visited-url collections:
`url_queue` in id (= insertion) order, `visited_urls` as a set. -/
structure CrawlerStore where
  url_queue : List (List Char)
  visited_urls : List (List Char)
deriving DecidableEq

/-- `_add_urls_to_queue`: one `INSERT OR IGNORE INTO url_queue (url)` per
url; the UNIQUE constraint on `url` makes an insert of a url already in the
queue a no-op, and `AUTOINCREMENT` ids make fresh inserts append at the
tail. The visited_urls table is not consulted. -/
def add_urls_to_queue (st : CrawlerStore) (urls : List (List Char)) : CrawlerStore :=
  urls.foldl
    (fun s url =>
      if url ∈ s.url_queue then s
      else { s with url_queue := s.url_queue ++ [url] })
    st

/-- C3 (counterexample to the claim as stated): enqueueing a url that is
already visited but not queued is not a no-op — the url enters the
frontier, so the frontier and the visited set do not stay disjoint. -/
theorem add_urls_visited_cx :
    ¬ (add_urls_to_queue ⟨[], [['u']]⟩ [['u']] = ⟨[], [['u']]⟩ ∧
       ∀ x ∈ (add_urls_to_queue ⟨[], [['u']]⟩ [['u']]).url_queue,
         x ∉ (add_urls_to_queue ⟨[], [['u']]⟩ [['u']]).visited_urls) := by
  decide

/-- C3 (amended): enqueueing skips exactly the urls already in the frontier
(a silent no-op for those); the visited set is neither consulted nor
changed, so an already-visited url that is not currently queued is appended
to the frontier. -/
theorem add_urls_to_queue_contract (st : CrawlerStore) (u : List Char) :
    (u ∈ st.url_queue → add_urls_to_queue st [u] = st) ∧
    (u ∉ st.url_queue →
      (add_urls_to_queue st [u]).url_queue = st.url_queue ++ [u] ∧
      (add_urls_to_queue st [u]).visited_urls = st.visited_urls) := by
  constructor
  · intro h
    simp [add_urls_to_queue, h]
  · intro h
    simp [add_urls_to_queue, h]

/-- `_extract_monographs`: every single letter of the word, in order. -/
def extract_monographs (w : List Char) : List (List Char) :=
  w.map fun c => [c]

/-- `_extract_digraphs`: `word[i:i+2]` for `i in range(len(word) - 1)`. -/
def extract_digraphs (w : List Char) : List (List Char) :=
  (List.range (w.length - 1)).map fun i => sliceWord w i (i + 2)

/-- `_extract_trigraphs`: `word[i:i+3]` for `i in range(len(word) - 2)`. -/
def extract_trigraphs (w : List Char) : List (List Char) :=
  (List.range (w.length - 2)).map fun i => sliceWord w i (i + 3)

/-- A single store mutation issued while a page is processed. -/
inductive Mutation
  | addWord (w : List Char)
  | incSyllable (g w u : List Char)
  | incMonograph (g w u : List Char)
  | incDigraph (g w u : List Char)
  | incTrigraph (g w u : List Char)
  | markVisited (url : List Char)
  | enqueueUrl (url : List Char)
deriving DecidableEq

/-- A store event: a mutation statement, or a `conn.commit()`. -/
inductive DbEvent
  | mut (m : Mutation)
  | commit
deriving DecidableEq

/-- The mutations `process_text` issues for one distinct token: capitalized
tokens are skipped (proper-noun heuristic `word[0].isupper()`); otherwise
the token is lowercased and, when `if syllables:` is truthy (false both for
`None` and for the empty list), the word insert and the four n-gram update
loops run. -/
def wordMutations (inv : List Char → Bool) (url word : List Char) : List Mutation :=
  if (word.head?.elim false pyIsUpper) then []
  else
    match syllabify_word (pyLower word) inv with
    | none => []
    | some ss =>
      if ss.isEmpty then []
      else
        [Mutation.addWord (pyLower word)]
        ++ ss.map (fun s => Mutation.incSyllable s (pyLower word) url)
        ++ (extract_monographs (pyLower word)).map
            (fun g => Mutation.incMonograph g (pyLower word) url)
        ++ (extract_digraphs (pyLower word)).map
            (fun g => Mutation.incDigraph g (pyLower word) url)
        ++ (extract_trigraphs (pyLower word)).map
            (fun g => Mutation.incTrigraph g (pyLower word) url)

/-- `process_text`: the mutation statements for the page's distinct tokens,
then the one `conn.commit()` at the end of the function. Python iterates
`set(words)` in unspecified order; `tokens` stands for that iteration
order. -/
def process_text_trace (inv : List Char → Bool) (tokens : List (List Char))
    (url : List Char) : List DbEvent :=
  (tokens.flatMap fun w => (wordMutations inv url w).map DbEvent.mut)
    ++ [DbEvent.commit]

/-- `_mark_url_visited`: one insert, then its own `conn.commit()`. -/
def mark_url_visited_trace (url : List Char) : List DbEvent :=
  [DbEvent.mut (Mutation.markVisited url), DbEvent.commit]

/-- `_add_urls_to_queue`: the inserts, then its own `conn.commit()`. -/
def add_urls_trace (urls : List (List Char)) : List DbEvent :=
  urls.map (fun u => DbEvent.mut (Mutation.enqueueUrl u)) ++ [DbEvent.commit]

/-- The store events of one `crawl_continuous` iteration for a fetched page:
mark the url visited (commits on its own), process the text when nonempty
(commits on its own), enqueue the page's links when there are any (commits
on its own). -/
def page_trace (inv : List Char → Bool) (url : List Char) (has_text : Bool)
    (tokens links : List (List Char)) : List DbEvent :=
  mark_url_visited_trace url
  ++ (if has_text then process_text_trace inv tokens url else [])
  ++ (if links.isEmpty then [] else add_urls_trace links)

/-- Group a store-event sequence into the mutation batches its commits made
durable: `pending` accumulates mutations since the last commit; mutations
after the final commit are not durable and are dropped. -/
def commitBatchesAux : List Mutation → List DbEvent → List (List Mutation)
  | _, [] => []
  | pending, DbEvent.mut m :: rest => commitBatchesAux (pending ++ [m]) rest
  | pending, DbEvent.commit :: rest => pending :: commitBatchesAux [] rest

/-- The durable batches of a store-event sequence. -/
def committedBatches (evs : List DbEvent) : List (List Mutation) :=
  commitBatchesAux [] evs

/-- Modelled from the spec: all store mutations attributable to one page are
committed as a single all-or-nothing unit, i.e. at most one committed batch
is nonempty. -/
def singleAtomicUnit (evs : List DbEvent) : Prop :=
  ((committedBatches evs).filter fun b => !b.isEmpty).length ≤ 1

lemma commitBatchesAux_muts (pending ms : List Mutation) (rest : List DbEvent) :
    commitBatchesAux pending (ms.map DbEvent.mut ++ DbEvent.commit :: rest) =
      (pending ++ ms) :: commitBatchesAux [] rest := by
  induction ms generalizing pending with
  | nil => simp [commitBatchesAux]
  | cons m t ih =>
    rw [List.map_cons, List.cons_append]
    show commitBatchesAux (pending ++ [m]) _ = _
    rw [ih (pending ++ [m]), List.append_assoc]
    rfl

/-- C2 (counterexample to the claim as stated): a page with one Turkish
token and one extracted link commits in three separate units, not one. -/
theorem page_commit_not_atomic_cx :
    ¬ singleAtomicUnit
        (page_trace (fun s => decide (s = ['e', 'v'])) ['u'] true
          [['e', 'v']] [['x']]) := by
  unfold singleAtomicUnit
  decide

/-- C2 (amended): the store mutations of one fetched page with text are
split across separate commit units — the visited-mark commits alone first,
then every word/counter mutation of `process_text` commits as one unit,
then the frontier inserts commit — and right after the first commit only
the visited-mark is durable. -/
theorem page_trace_commit_units (inv : List Char → Bool) (url : List Char)
    (tokens links : List (List Char)) :
    committedBatches (page_trace inv url true tokens links) =
      [[Mutation.markVisited url]] ++
      [tokens.flatMap (wordMutations inv url)] ++
      (if links.isEmpty then [] else [links.map Mutation.enqueueUrl]) ∧
    committedBatches ((page_trace inv url true tokens links).take 2) =
      [[Mutation.markVisited url]] := by
  constructor
  · show commitBatchesAux [] _ = _
    rw [page_trace, mark_url_visited_trace, if_pos rfl]
    show commitBatchesAux []
      (([Mutation.markVisited url].map DbEvent.mut) ++ DbEvent.commit ::
        (process_text_trace inv tokens url ++ _)) = _
    rw [commitBatchesAux_muts]
    rw [process_text_trace]
    have hflat : (tokens.flatMap fun w => (wordMutations inv url w).map DbEvent.mut) =
        (tokens.flatMap (wordMutations inv url)).map DbEvent.mut := by
      rw [List.map_flatMap]
    rw [List.append_assoc, hflat]
    show _ :: commitBatchesAux []
      ((tokens.flatMap (wordMutations inv url)).map DbEvent.mut ++
        DbEvent.commit :: _) = _
    rw [commitBatchesAux_muts]
    by_cases hl : links.isEmpty
    · simp only [if_pos hl]
      rfl
    · simp only [if_neg hl, add_urls_trace]
      have hmap : links.map (fun u => DbEvent.mut (Mutation.enqueueUrl u)) =
          (links.map Mutation.enqueueUrl).map DbEvent.mut := by
        rw [List.map_map]; rfl
      simp only [List.append_eq, List.nil_append]
      rw [hmap, commitBatchesAux_muts]
      rfl
  · rw [page_trace, mark_url_visited_trace]
    rfl

/-- The components of `urlparse` that `extract_links` reads. `urljoin` and
`urlparse` are Python standard library; the page's anchors are modelled as
the document-order list of already-resolved absolute urls, and `parse` as
the parser oracle over them. -/
structure ParsedUrl where
  scheme : List Char
  netloc : List Char
deriving DecidableEq

def beginsWith : List Char → List Char → Bool
  | _, [] => true
  | [], _ :: _ => false
  | c :: cs, n :: ns => c == n && beginsWith cs ns

/-- Python's substring test `needle in hay` on strings. -/
def containsSub : List Char → List Char → Bool
  | [], needle => needle.isEmpty
  | c :: rest, needle => beginsWith (c :: rest) needle || containsSub rest needle

/-- The `turkish_patterns` list of `is_turkish_domain`. -/
def turkish_patterns : List (List Char) :=
  [".tr/".toList, ".tr?".toList, ".tr#".toList, "tr.wikipedia.org".toList,
   "/tr/".toList, "/tr?".toList, "turkish".toList, "turkiye".toList,
   "istanbul".toList]

/-- `is_turkish_domain`: some pattern occurs in the lowercased url. -/
def is_turkish_domain (url : List Char) : Bool :=
  turkish_patterns.any fun p => containsSub (pyLower url) p

/-- The filter condition of `extract_links`, in the source's order:
(same domain or Turkish content) and http/https scheme and not visited. -/
def keepLink (parse : List Char → ParsedUrl) (visited : List (List Char))
    (base_url u : List Char) : Bool :=
  ((parse u).netloc == (parse base_url).netloc || is_turkish_domain u)
  && ((parse u).scheme == "http".toList || (parse u).scheme == "https".toList)
  && !(decide (u ∈ visited))

/-- The `for link in soup.find_all(...)` loop of `extract_links`: append
each kept absolute url to the accumulator, in document order. -/
def extractLinksLoop (parse : List Char → ParsedUrl) (visited : List (List Char))
    (base_url : List Char) (acc : List (List Char)) :
    List (List Char) → List (List Char)
  | [] => acc
  | u :: rest =>
    extractLinksLoop parse visited base_url
      (if keepLink parse visited base_url u then acc ++ [u] else acc) rest

/-- `extract_links`: run the loop, then `links[:50]`. -/
def extract_links (parse : List Char → ParsedUrl) (visited : List (List Char))
    (base_url : List Char) (hrefs : List (List Char)) : List (List Char) :=
  (extractLinksLoop parse visited base_url [] hrefs).take 50

lemma extractLinksLoop_eq (parse : List Char → ParsedUrl)
    (visited : List (List Char)) (base_url : List Char)
    (acc urls : List (List Char)) :
    extractLinksLoop parse visited base_url acc urls =
      acc ++ urls.filter (keepLink parse visited base_url) := by
  induction urls generalizing acc with
  | nil => simp [extractLinksLoop]
  | cons u rest ih =>
    rw [extractLinksLoop]
    by_cases h : keepLink parse visited base_url u
    · rw [if_pos h, ih, List.filter_cons_of_pos h, List.append_assoc]
      rfl
    · rw [if_neg h, ih, List.filter_cons_of_neg (by simpa using h)]

/-- C7: link extraction returns the document-order-preserving filter of the
page's resolved anchors — http/https scheme, not visited at filter time,
same-domain or Turkish heuristic — capped at 50. -/
theorem extract_links_contract (parse : List Char → ParsedUrl)
    (visited : List (List Char)) (base_url : List Char)
    (hrefs : List (List Char)) :
    extract_links parse visited base_url hrefs =
      (hrefs.filter (keepLink parse visited base_url)).take 50 ∧
    (extract_links parse visited base_url hrefs).length ≤ 50 ∧
    (extract_links parse visited base_url hrefs).Sublist hrefs ∧
    ∀ u ∈ extract_links parse visited base_url hrefs,
      ((parse u).scheme = "http".toList ∨ (parse u).scheme = "https".toList) ∧
      u ∉ visited ∧
      ((parse u).netloc = (parse base_url).netloc ∨ is_turkish_domain u = true) := by
  have heq : extract_links parse visited base_url hrefs =
      (hrefs.filter (keepLink parse visited base_url)).take 50 := by
    rw [extract_links, extractLinksLoop_eq]
    rfl
  refine ⟨heq, ?_, ?_, ?_⟩
  · rw [heq]
    exact le_trans (List.length_take_le _ _) (le_refl _)
  · rw [heq]
    exact ((List.take_sublist _ _).trans (List.filter_sublist _))
  · intro u hu
    rw [heq] at hu
    have hf : u ∈ hrefs.filter (keepLink parse visited base_url) :=
      (List.take_sublist _ _).subset hu
    have hk : keepLink parse visited base_url u = true :=
      (List.mem_filter.mp hf).2
    rw [keepLink] at hk
    simp only [Bool.and_eq_true, Bool.or_eq_true, beq_iff_eq, Bool.not_eq_true',
      decide_eq_false_iff_not] at hk
    exact ⟨hk.1.2, hk.2, hk.1.1⟩

/-- The in-flight state of one `crawl_continuous` session: the frontier, the
visited set, the session's fetch log (each `crawl_page` call, a ghost
field), and `pages_this_session`. -/
structure CrawlState where
  queue : List (List Char)
  visited : List (List Char)
  fetched : List (List Char)
  pages : Nat
deriving DecidableEq

/-- One iteration of the `while True` loop of `crawl_continuous`: stop at
the page budget (`max_pages > 0 and pages >= max_pages`) or on an empty
frontier; a dequeued url already in the visited set is skipped (`continue`)
without a fetch; otherwise the url is fetched, marked visited, and the
page's filtered links (the oracle `fetchLinks`) are enqueued with the same
insert-or-ignore fold as `_add_urls_to_queue`. -/
def crawl_step (maxPages : Nat) (fetchLinks : List Char → List (List Char))
    (st : CrawlState) : Option CrawlState :=
  if 0 < maxPages ∧ maxPages ≤ st.pages then none
  else
    match st.queue with
    | [] => none
    | url :: rest =>
      if url ∈ st.visited then
        some { st with queue := rest }
      else
        some {
          queue := (fetchLinks url).foldl
            (fun q u => if u ∈ q then q else q ++ [u]) rest,
          visited := st.visited ++ [url],
          fetched := st.fetched ++ [url],
          pages := st.pages + 1 }

/-- `crawl_continuous` run for at most `n` iterations (the loop exits when a
step returns `none`). -/
def crawl_run (maxPages : Nat) (fetchLinks : List Char → List (List Char)) :
    Nat → CrawlState → CrawlState
  | 0, st => st
  | n + 1, st =>
    match crawl_step maxPages fetchLinks st with
    | none => st
    | some st2 => crawl_run maxPages fetchLinks n st2

/-- The fetch-log invariant: no url fetched twice, every fetched url is
marked visited, the session's initial visited set only grows, and no url
visited at session start is ever fetched. -/
def FetchInv (V0 : List (List Char)) (st : CrawlState) : Prop :=
  st.fetched.Nodup ∧ (∀ u ∈ st.fetched, u ∈ st.visited) ∧
  (∀ u ∈ V0, u ∈ st.visited) ∧ (∀ u ∈ st.fetched, u ∉ V0)

lemma crawl_step_inv {maxPages : Nat} {fetchLinks : List Char → List (List Char)}
    {V0 : List (List Char)} {st st2 : CrawlState}
    (h : crawl_step maxPages fetchLinks st = some st2) (hinv : FetchInv V0 st) :
    FetchInv V0 st2 := by
  obtain ⟨hnd, hfv, hv0, hf0⟩ := hinv
  rw [crawl_step] at h
  split at h
  · cases h
  · split at h
    · cases h
    · next x url rest heq =>
      by_cases hvis : url ∈ st.visited
      · rw [if_pos hvis] at h
        cases h
        exact ⟨hnd, hfv, hv0, hf0⟩
      · rw [if_neg hvis] at h
        cases h
        have hufetched : url ∉ st.fetched := fun hc => hvis (hfv url hc)
        refine ⟨?_, ?_, ?_, ?_⟩
        · have hperm := List.perm_append_singleton url st.fetched
          rw [hperm.nodup_iff, List.nodup_cons]
          exact ⟨hufetched, hnd⟩
        · intro u hu
          rcases List.mem_append.mp hu with hu | hu
          · exact List.mem_append_left _ (hfv u hu)
          · rw [List.mem_singleton] at hu
            subst hu
            exact List.mem_append_right _ (List.mem_singleton_self _)
        · intro u hu
          exact List.mem_append_left _ (hv0 u hu)
        · intro u hu
          rcases List.mem_append.mp hu with hu | hu
          · exact hf0 u hu
          · rw [List.mem_singleton] at hu
            subst hu
            exact fun hc => hvis (hv0 u hc)

lemma crawl_run_inv (maxPages : Nat) (fetchLinks : List Char → List (List Char))
    {V0 : List (List Char)} :
    ∀ (n : Nat) (st : CrawlState), FetchInv V0 st →
      FetchInv V0 (crawl_run maxPages fetchLinks n st)
  | 0, _, hinv => hinv
  | n + 1, st, hinv => by
    rw [crawl_run]
    cases h : crawl_step maxPages fetchLinks st with
    | none => exact hinv
    | some st2 => exact crawl_run_inv maxPages fetchLinks n st2 (crawl_step_inv h hinv)

/-- C8: in any crawl session started with an empty fetch log, an
already-visited dequeued url is skipped without a fetch: no url is fetched
twice, and no url in the visited set at session start is ever fetched. -/
theorem crawl_fetches_at_most_once (maxPages n : Nat)
    (fetchLinks : List Char → List (List Char))
    (queue visited : List (List Char)) :
    (crawl_run maxPages fetchLinks n ⟨queue, visited, [], 0⟩).fetched.Nodup ∧
    ∀ u ∈ (crawl_run maxPages fetchLinks n ⟨queue, visited, [], 0⟩).fetched,
      u ∉ visited := by
  have hinit : FetchInv visited ⟨queue, visited, [], 0⟩ :=
    ⟨List.nodup_nil, fun u hu => absurd hu (List.not_mem_nil u),
     fun u hu => hu, fun u hu => absurd hu (List.not_mem_nil u)⟩
  have h := crawl_run_inv maxPages fetchLinks n _ hinit
  exact ⟨h.1, h.2.2.2⟩
